import Mathlib

/-!
Verification development for the stretchy-path projection core of the
fiddlesticks.io repository.

The embedding follows the TypeScript sources:

* src/src/paper/StretchyPath.ts — the orchestrator: the decomposition walk
  (getOutlineSides), the arrangement pass (arrangePath / arrangeContents),
  outline creation and the midpoint-marker rebuild (updateMidpiontMarkers).
* src/client/sketchEditor/workspace/PathSection.ts — the arc-length window
  (PathSection.getPointAt).

Parts of the repository referenced by StretchyPath.ts but not present under
src/ (PaperHelpers.sandwichPathProjection, PathTransform, SegmentHandle,
CurveSplitterHandle) are modelled from the spec; each such definition carries
a doc comment saying so.  The vector-graphics engine (paper.js) is an external
collaborator; its arc-length sampling primitive is modelled from the spec's
interface description.

Machine doubles are modelled as exact rationals; paper.Segment object identity
(the === comparisons in the source) is modelled by a numeric id carried on
each segment, with the embedding keeping ids unique.
-/

namespace Fiddlesticks

/-- A 2D point: paper.Point, with double-precision coordinates modelled as
exact rationals. -/
@[ext]
structure Pt where
  x : ℚ
  y : ℚ
deriving DecidableEq, Inhabited

/-- Componentwise point addition (paper.Point.add). -/
def Pt.add (a b : Pt) : Pt := ⟨a.x + b.x, a.y + b.y⟩

/-- Componentwise point subtraction (paper.Point.subtract). -/
def Pt.sub (a b : Pt) : Pt := ⟨a.x - b.x, a.y - b.y⟩

/-- The engine tolerance constant paper.Numerical.EPSILON used by the
decomposition walk's corner matching (10e-12 in the contemporary paper.js). -/
def EPSILON : ℚ := 1 / 10 ^ 11

/-- paper.Point.isClose: Euclidean distance at most the tolerance.  Stated on
squared distances, which is equivalent and keeps everything rational. -/
def isClose (a b : Pt) : Bool :=
  decide ((a.x - b.x) ^ 2 + (a.y - b.y) ^ 2 ≤ EPSILON ^ 2)

/-- A paper.Segment of the outline frame.  The source compares segments by
object identity (===) and mutates their points in place; the embedding gives
every segment a numeric id standing for its object identity. -/
structure Seg where
  id : ℕ
  point : Pt
deriving DecidableEq, Inhabited

/-- A paper.Path as produced by the decomposition: its segment list and its
closed flag (new paper.Path(segments) yields an open path). -/
structure PaperPath where
  segments : List Seg
  closed : Bool
deriving DecidableEq, Inhabited

/-! ### The decomposition walk (StretchyPath.getOutlineSides) -/

/-- JS shift-then-push rotation of the corner-point queue:
cornerPoints.push(cornerPoints.shift()). -/
def rotate1 {α : Type} : List α → List α
  | [] => []
  | x :: xs => xs ++ [x]

/-- Errors the walk can raise: the explicit throw when the side count is not 4,
and the TypeError the JS code hits when it dereferences an undefined
targetCorner (corner queue exhausted before the walk ends) or an undefined
first segment (empty outline). -/
inductive SidesError where
  | typeError
  | failedToGetSides
deriving DecidableEq, Inhabited

/-- Loop state of the walk in getOutlineSides: the sides produced so far, the
segment group being accumulated, the remaining target-corner queue (head is
the current targetCorner), and whether the walk has crashed. -/
structure WalkState where
  sides : List (List Seg)
  group : List Seg
  targets : List Pt
  crashed : Bool
deriving DecidableEq, Inhabited

/-- One iteration of the for-loop in getOutlineSides: push the segment onto the
current group; if the current target corner is close to the segment's point,
close the group as a side, restart the group from this segment and advance the
corner queue.  When the queue is already exhausted the JS code dereferences
undefined and crashes. -/
def walkStep (st : WalkState) (s : Seg) : WalkState :=
  if st.crashed then st
  else
    match st.targets with
    | [] => { st with crashed := true }
    | t :: rest =>
      if isClose t s.point then
        { sides := st.sides ++ [st.group ++ [s]]
          group := [s]
          targets := rest
          crashed := false }
      else
        { st with group := st.group ++ [s] }

/-- The final loop state of the walk: the segment list is the outline's
segments with the first segment appended again (the wrap-around), and the
target queue is the corner points rotated by one (shift then push). -/
def walkFinal (outline corners : List Seg) : WalkState :=
  (outline ++ outline.take 1).foldl walkStep
    ⟨[], [], rotate1 (corners.map (·.point)), false⟩

/-- StretchyPath.getOutlineSides: walk the outline's segments (plus the
wrap-around repeat of the first segment), cutting a new side at every match of
the next target corner; fail when the walk crashed, or with the explicit
throw when the side count is not 4. -/
def getOutlineSides (outline corners : List Seg) :
    Except SidesError (List PaperPath) :=
  match outline with
  | [] => .error .typeError
  | _ :: _ =>
    let final := walkFinal outline corners
    if final.crashed then .error .typeError
    else if final.sides.length ≠ 4 then .error .failedToGetSides
    else .ok (final.sides.map fun g => ⟨g, false⟩)

/-- A frame is valid for the walk when, between consecutive corners, no
traversed segment sits within the matching tolerance of the corner the walk is
currently seeking (the corners themselves match since a point is close to
itself). -/
def ValidFrame (c0 c1 c2 c3 : Seg) (B0 B1 B2 B3 : List Seg) : Prop :=
  (∀ s ∈ c0 :: B0, isClose c1.point s.point = false) ∧
  (∀ s ∈ B1, isClose c2.point s.point = false) ∧
  (∀ s ∈ B2, isClose c3.point s.point = false) ∧
  (∀ s ∈ B3, isClose c0.point s.point = false)

instance (c0 c1 c2 c3 : Seg) (B0 B1 B2 B3 : List Seg) :
    Decidable (ValidFrame c0 c1 c2 c3 B0 B1 B2 B3) := by
  unfold ValidFrame; infer_instance

/-- Two consecutive sides of the decomposition overlap: the later one begins
with the very segment at which the earlier one was closed. -/
def sideRel (a b : List Seg) : Prop := b.head? = a.getLast?

/-- Last segment of the last side produced so far. -/
def lastOfLast (st : WalkState) : Option Seg :=
  st.sides.getLast?.bind List.getLast?

/-- Invariant maintained by the walk: the produced sides chain through their
shared cut segments, every produced side is nonempty, and the group being
accumulated starts at the segment that closed the previous side. -/
def WalkInv (st : WalkState) : Prop :=
  List.Chain' sideRel st.sides ∧ (∀ l ∈ st.sides, l ≠ []) ∧
    (st.sides ≠ [] → st.group.head? = lastOfLast st)

/-- Concatenation of the decomposition's sides in contour order, dropping each
later side's duplicated leading segment (the shared corner at which the
previous side was closed). -/
def joinSides (sides : List PaperPath) : List Seg :=
  match sides with
  | [] => []
  | s :: rest => s.segments ++ (rest.map (fun p => p.segments.tail)).flatten

/-! ### Arc-length sampling (engine interface) and the sandwich projection -/

/-- Modelled from the spec: an arc-length parameterized curve as exposed by
the vector-graphics engine collaborator (paper.Curvelike): an intrinsic
sampling function addressing a point by distance traveled along the curve,
and the curve's true length. -/
structure Curvelike where
  sample : ℚ → Pt
  length : ℚ

/-- Modelled from the spec: the engine's arc-length sampling primitive
(paper.Path.getPointAt), returning the point at the queried distance along
the curve's intrinsic arc-length parameterization, clamped to the curve's
true length. -/
def Curvelike.getPointAt (c : Curvelike) (d : ℚ) : Pt :=
  c.sample (max 0 (min d c.length))

/-- SketchEditor.PathSection: a window into a path given by an arc-length
offset and a length (src/client/sketchEditor/workspace/PathSection.ts). -/
structure PathSection where
  path : Curvelike
  offset : ℚ
  length : ℚ

/-- PathSection.getPointAt: sample the underlying path at the queried offset
shifted by the window's start offset. -/
def PathSection.getPointAt (s : PathSection) (offset : ℚ) : Pt :=
  s.path.getPointAt (offset + s.offset)

/-- The point p lies on the curve: it is the sample at some in-range arc
length. -/
def OnCurve (p : Pt) (c : Curvelike) : Prop :=
  ∃ t, 0 ≤ t ∧ t ≤ c.length ∧ p = c.sample t

/-- Linear interpolation between two points with parameter v. -/
def lerp (a b : Pt) (v : ℚ) : Pt :=
  ⟨a.x + (b.x - a.x) * v, a.y + (b.y - a.y) * v⟩

/-- Modelled from the spec: PaperHelpers.sandwichPathProjection (referenced
from StretchyPath.arrangePath but not present under src/): project(u, v) is
the linear interpolation with parameter v between the top curve's point at
arc length u*topLength and the bottom curve's point at arc length
u*bottomLength. -/
def sandwichPathProjection (top bottom : Curvelike) (u v : ℚ) : Pt :=
  lerp (top.getPointAt (u * top.length))
    (bottom.getPointAt (u * bottom.length)) v

/-! ### The StretchyPath orchestrator -/

/-- An anchor of a composite path: a segment's point with its relative
control handles. -/
structure Anchor where
  point : Pt
  handleIn : Pt
  handleOut : Pt
deriving DecidableEq, Inhabited

/-- A composite path (paper.CompoundPath): contours of anchors. -/
abbrev CompositePath : Type := List (List Anchor)

/-- Modelled from the spec: the engine collaborator converting a boundary
side path into an arc-length sampled curve.  The engine is external to the
repository, so the model abstracts over it; every StretchyPath state carries
the engine it uses. -/
structure Engine where
  toCurvelike : PaperPath → Curvelike

/-- The StretchyPath state relevant to arrangement: the immutable source
artwork, the outline frame's segments, the corner aliases, the derived
display artwork, the midpoint affordances (stored as the outline curves they
split), an id supply for newly inserted segments, and the engine. -/
structure SPState where
  sourcePath : CompositePath
  outline : List Seg
  corners : List Seg
  displayPath : Option CompositePath
  midpointMarkers : List (Seg × Seg)
  nextId : ℕ
  engine : Engine

/-- All anchor points of a composite path. -/
def allAnchorPoints (cp : CompositePath) : List Pt :=
  cp.flatten.map (·.point)

/-- Minimum of a list of rationals (0 for the empty list). -/
def qMin (l : List ℚ) : ℚ :=
  match l with
  | [] => 0
  | x :: xs => xs.foldl min x

/-- Maximum of a list of rationals (0 for the empty list). -/
def qMax (l : List ℚ) : ℚ :=
  match l with
  | [] => 0
  | x :: xs => xs.foldl max x

/-- Modelled from the spec: the engine's bounds computation, taken as the
bounding box of the anchor points; topLeft is the componentwise minimum. -/
def boundsTopLeft (cp : CompositePath) : Pt :=
  ⟨qMin ((allAnchorPoints cp).map (·.x)), qMin ((allAnchorPoints cp).map (·.y))⟩

/-- Width of the anchor bounding box. -/
def boundsWidth (cp : CompositePath) : ℚ :=
  qMax ((allAnchorPoints cp).map (·.x)) - qMin ((allAnchorPoints cp).map (·.x))

/-- Height of the anchor bounding box. -/
def boundsHeight (cp : CompositePath) : ℚ :=
  qMax ((allAnchorPoints cp).map (·.y)) - qMin ((allAnchorPoints cp).map (·.y))

/-- Modelled from the spec: PathTransform (not present under src/) applies
the point mapping to one anchor: the anchor point maps through f and each
relative control handle is derived from the transformed neighborhood, as the
image of the handle's endpoint relative to the image of the anchor. -/
def transformAnchor (f : Pt → Pt) (a : Anchor) : Anchor :=
  ⟨f a.point, (f (a.point.add a.handleIn)).sub (f a.point),
   (f (a.point.add a.handleOut)).sub (f a.point)⟩

/-- Modelled from the spec: PathTransform.transformPathItem recurses into
every contour of the composite path, preserving topology. -/
def transformPathItem (f : Pt → Pt) (cp : CompositePath) : CompositePath :=
  cp.map (fun contour => contour.map (transformAnchor f))

/-- paper.Path.reverse on a handle-free boundary side: reverse the segment
order. -/
def PaperPath.reverse (p : PaperPath) : PaperPath :=
  ⟨p.segments.reverse, p.closed⟩

/-- The curves of the closed outline path: one curve from each segment to the
next, the last wrapping back to the first segment. -/
def outlineCurves (l : List Seg) : List (Seg × Seg) :=
  l.zip (rotate1 l)

/-- Whether the segment is the i-th corner, by object identity (the ===
comparisons in updateMidpiontMarkers). -/
def segIsCorner (s : Seg) (corners : List Seg) (i : ℕ) : Bool :=
  match corners[i]? with
  | some c => s.id == c.id
  | none => false

/-- The curves of the outline that receive a curve-splitter handle in
updateMidpiontMarkers: every curve except those whose segment1 is corners[1]
or corners[3] (left and right sides are skipped). -/
def midpointHandleCurves (outline corners : List Seg) : List (Seg × Seg) :=
  (outlineCurves outline).filter
    (fun c => !(segIsCorner c.1 corners 1 || segIsCorner c.1 corners 3))

/-- StretchyPath.updateMidpiontMarkers (source spelling): rebuild the
midpoint-insertion affordances from the current outline curves, skipping the
left and right sides. -/
def updateMidpiontMarkers (st : SPState) : SPState :=
  { st with midpointMarkers := midpointHandleCurves st.outline st.corners }

/-- StretchyPath.arrangePath: decompose the outline into 4 sides (throwing on
failure), reverse the bottom side, build the sandwich projection from the top
and reversed bottom sides, transform a clone of the source path through the
projection of bounds-normalized coordinates, and replace the display path
with the result. -/
def arrangePath (st : SPState) : Except SidesError SPState :=
  match getOutlineSides st.outline st.corners with
  | .error e => .error e
  | .ok sides =>
    let orthOrigin := boundsTopLeft st.sourcePath
    let orthWidth := boundsWidth st.sourcePath
    let orthHeight := boundsHeight st.sourcePath
    let top := sides.getD 0 default
    let bottom := (sides.getD 2 default).reverse
    let projection := sandwichPathProjection (st.engine.toCurvelike top)
      (st.engine.toCurvelike bottom)
    let transform := fun (point : Pt) =>
      projection ((point.x - orthOrigin.x) / orthWidth)
        ((point.y - orthOrigin.y) / orthHeight)
    let newPath := transformPathItem transform st.sourcePath
    .ok { st with displayPath := some newPath }

/-- StretchyPath.arrangeContents: rebuild the midpoint markers, then run the
arrangement pass. -/
def arrangeContents (st : SPState) : Except SidesError SPState :=
  arrangePath (updateMidpiontMarkers st)

/-- The observable state after calling arrangeContents: on success the new
state; when the decomposition throws, the exception propagates out of
arrangePath before the display path is touched, so the state at that moment
keeps the previous display path (markers were already rebuilt). -/
def tryArrangeContents (st : SPState) : SPState :=
  match arrangeContents st with
  | .ok stNew => stNew
  | .error _ => updateMidpiontMarkers st

/-! ### Frame edits -/

/-- SegmentHandle dragging segment sid to p mutates that segment's point in
place (the handle classes live outside src/; this is the mutation they
perform on the shared segment object). -/
def movePt (sid : ℕ) (p : Pt) (s : Seg) : Seg :=
  if s.id = sid then { s with point := p } else s

/-- Insert a new segment right after the segment with the given id: the
position at which a curve split places its new segment, after the split
curve's segment1. -/
def insertAfter (sid : ℕ) (s : Seg) : List Seg → List Seg
  | [] => []
  | x :: xs => if x.id = sid then x :: s :: xs else x :: insertAfter sid s xs

/-- The frame edits reachable from the UI: dragging a segment handle (corner
handles included), and dragging the midpoint splitter of one of the offered
curves, which inserts a fresh segment after that curve's first segment.
Every edit ends in an arrangement pass (onChangeComplete and onDragEnd both
call arrangeContents). -/
inductive EditOp where
  | drag (sid : ℕ) (p : Pt)
  | insertMidpoint (c : Seg × Seg) (p : Pt)

/-- Apply one UI edit: drags update the shared segment object (visible in
both the outline and the corners list); midpoint insertion is only possible
on a curve that currently has a splitter affordance. -/
def applyEdit (st : SPState) : EditOp → SPState
  | .drag sid p =>
    tryArrangeContents
      { st with outline := st.outline.map (movePt sid p)
                corners := st.corners.map (movePt sid p) }
  | .insertMidpoint c p =>
    if c ∈ midpointHandleCurves st.outline st.corners then
      tryArrangeContents
        { st with outline := insertAfter c.1.id ⟨st.nextId, p⟩ st.outline
                  nextId := st.nextId + 1 }
    else st

/-- Apply a sequence of UI edits. -/
def applyEdits (st : SPState) (ops : List EditOp) : SPState :=
  ops.foldl applyEdit st

/-- Modelled from the spec: the number of distinct corner points supplied. -/
def distinctCornerCount (corners : List Seg) : ℕ :=
  ((corners.map (·.point)).dedup).length

/-- Modelled from the spec: the re-architected mutation entry point
onCornerMoved; if the move would leave fewer than 4 distinct corners the
mutation is refused before any arrangement pass is attempted, otherwise the
drag is applied and an arrangement pass runs. -/
def onCornerMoved (st : SPState) (sid : ℕ) (p : Pt) : SPState :=
  let moved : SPState :=
    { st with outline := st.outline.map (movePt sid p)
              corners := st.corners.map (movePt sid p) }
  if distinctCornerCount moved.corners < 4 then st
  else tryArrangeContents moved

/-- Modelled from the spec: the re-architected mutation entry point
onMidpointInserted; with fewer than 4 distinct corners the mutation is
refused before any arrangement pass is attempted. -/
def onMidpointInserted (st : SPState) (c : Seg × Seg) (p : Pt) : SPState :=
  if distinctCornerCount st.corners < 4 then st
  else applyEdit st (.insertMidpoint c p)

/-! ### Structural well-formedness of a frame -/

/-- The curves of an open side: consecutive segment pairs. -/
def chainCurves (l : List Seg) : List (Seg × Seg) := l.zip l.tail

/-- Structural well-formedness of a frame: the 4 corners alias outline
segments laid out as corner 0 first, the top run, corners 1 and 2 adjacent
(the right side is a single curve), the bottom run, and corner 3 last (the
left side is the single wrap-around curve back to corner 0); segment ids are
unique and below the fresh-id supply. -/
def WFcore (corners outline : List Seg) (nextId : ℕ) : Prop :=
  ∃ s0 s1 s2 s3 T B,
    corners = [s0, s1, s2, s3] ∧
    outline = s0 :: (T ++ s1 :: s2 :: (B ++ [s3])) ∧
    (outline.map (·.id)).Nodup ∧
    ∀ s ∈ outline, s.id < nextId

/-- Structural well-formedness of a StretchyPath state. -/
def WellFormed (st : SPState) : Prop :=
  WFcore st.corners st.outline st.nextId

/-! ### Concrete frames used by witnesses and counterexamples -/

/-- Corner segment 0 of a 10x10 square frame (the shape createOutline builds
for a source artwork with bounds (0,0)-(10,10)). -/
def sq0 : Seg := ⟨0, ⟨0, 0⟩⟩

/-- Corner segment 1 of the square frame. -/
def sq1 : Seg := ⟨1, ⟨10, 0⟩⟩

/-- Corner segment 2 of the square frame. -/
def sq2 : Seg := ⟨2, ⟨10, 10⟩⟩

/-- Corner segment 3 of the square frame. -/
def sq3 : Seg := ⟨3, ⟨0, 10⟩⟩

/-- The square frame's outline segment list. -/
def squareOutline : List Seg := [sq0, sq1, sq2, sq3]

/-- The square frame's corner list (aliases of the outline segments, as in
createOutline). -/
def squareCorners : List Seg := [sq0, sq1, sq2, sq3]

/-- The decomposition of the square frame. -/
def squareSidesList : List PaperPath :=
  [⟨[sq0, sq1], false⟩, ⟨[sq1, sq2], false⟩, ⟨[sq2, sq3], false⟩,
   ⟨[sq3, sq0], false⟩]

/-- A concrete curvelike used by witnesses: the segment [0,10] of the x-axis
sampled by arc length. -/
def witnessCurve : Curvelike := ⟨fun t => ⟨t, 0⟩, 10⟩

/-- A second concrete curvelike used by witnesses: the segment [0,20] of the
line y = 10. -/
def witnessBottomCurve : Curvelike := ⟨fun t => ⟨t, 10⟩, 20⟩

/-- A concrete arc-length window used by witnesses: offset 2, length 5 into
witnessCurve. -/
def witnessSection : PathSection := ⟨witnessCurve, 2, 5⟩

/-- A concrete engine used by witnesses: samples a side by walking from its
first segment's point along the x direction, with length the segment count. -/
def witnessEngine : Engine :=
  ⟨fun p =>
    ⟨fun t => ⟨(p.segments.getD 0 default).point.x + t,
      (p.segments.getD 0 default).point.y⟩,
     (p.segments.length : ℚ)⟩⟩

/-- A concrete square source contour with anchors (0,0)..(0,10) and no
handles. -/
def squareSource : CompositePath :=
  [[⟨⟨0, 0⟩, ⟨0, 0⟩, ⟨0, 0⟩⟩, ⟨⟨10, 0⟩, ⟨0, 0⟩, ⟨0, 0⟩⟩,
    ⟨⟨10, 10⟩, ⟨0, 0⟩, ⟨0, 0⟩⟩, ⟨⟨0, 10⟩, ⟨0, 0⟩, ⟨0, 0⟩⟩]]

/-- A concrete freshly constructed StretchyPath state on the square frame. -/
def squareState : SPState :=
  { sourcePath := squareSource
    outline := squareOutline
    corners := squareCorners
    displayPath := none
    midpointMarkers := []
    nextId := 4
    engine := witnessEngine }

/-- The square state after one successful arrangement pass. -/
def squareArranged : SPState :=
  (arrangeContents squareState).toOption.getD squareState

/-- The square state with its corner list manually corrupted so that only 3
corners match during a walk (corner 0 replaced by a segment at (99,99)). -/
def corruptedState : SPState :=
  { squareState with corners := [⟨9, ⟨99, 99⟩⟩, sq1, sq2, sq3] }

/-- The square state with a degenerate corner list: corner 1 collapsed onto
corner 0, leaving only 3 distinct corner points. -/
def degenerateState : SPState :=
  { squareState with corners := [sq0, sq0, sq2, sq3] }


/-! ### Properties of the walk -/

theorem isClose_refl (p : Pt) : isClose p p = true := by
  simp only [isClose, decide_eq_true_eq, sub_self]
  norm_num [EPSILON]

theorem walkStep_crashed (st : WalkState) (s : Seg) (h : st.crashed = true) :
    walkStep st s = st := by
  simp [walkStep, h]

theorem walkStep_match (st : WalkState) (s : Seg) (t : Pt) (rest : List Pt)
    (hc : st.crashed = false) (ht : st.targets = t :: rest)
    (hm : isClose t s.point = true) :
    walkStep st s = ⟨st.sides ++ [st.group ++ [s]], [s], rest, false⟩ := by
  simp [walkStep, hc, ht, hm]

theorem walkStep_no_match (st : WalkState) (s : Seg) (t : Pt) (rest : List Pt)
    (hc : st.crashed = false) (ht : st.targets = t :: rest)
    (hm : isClose t s.point = false) :
    walkStep st s = { st with group := st.group ++ [s] } := by
  simp [walkStep, hc, ht, hm]

/-- Folding the walk over a run of segments none of which matches the current
target corner just extends the accumulated group. -/
theorem foldl_walkStep_no_match (B : List Seg) (st : WalkState) (t : Pt)
    (rest : List Pt) (hc : st.crashed = false) (ht : st.targets = t :: rest)
    (hB : ∀ s ∈ B, isClose t s.point = false) :
    B.foldl walkStep st = { st with group := st.group ++ B } := by
  induction B generalizing st with
  | nil => simp
  | cons b B ih =>
    rw [List.foldl_cons, walkStep_no_match st b t rest hc ht (hB b (by simp))]
    rw [ih ⟨st.sides, st.group ++ [b], st.targets, st.crashed⟩ hc ht
      (fun s hs => hB s (by simp [hs]))]
    simp

/-- Folding the walk over a run of non-matching segments followed by the
matching corner closes exactly one side. -/
theorem foldl_walkStep_block (B : List Seg) (c : Seg) (t : Pt)
    (rest : List Pt) (st : WalkState)
    (hc : st.crashed = false) (ht : st.targets = t :: rest)
    (hB : ∀ s ∈ B, isClose t s.point = false)
    (hm : isClose t c.point = true) :
    (B ++ [c]).foldl walkStep st =
      ⟨st.sides ++ [st.group ++ B ++ [c]], [c], rest, false⟩ := by
  rw [List.foldl_append, foldl_walkStep_no_match B st t rest hc ht hB]
  simp only [List.foldl_cons, List.foldl_nil]
  rw [walkStep_match ⟨st.sides, st.group ++ B, st.targets, st.crashed⟩ c t rest
    hc ht hm]

/-- Closed form of the decomposition on a valid frame: the walk returns the
four sides cut at the corners, each side starting at a corner and ending at
the next (the fourth closing back at the starting corner via the wrap-around
segment). -/
theorem getOutlineSides_validFrame (c0 c1 c2 c3 : Seg) (B0 B1 B2 B3 : List Seg)
    (h : ValidFrame c0 c1 c2 c3 B0 B1 B2 B3) :
    getOutlineSides (c0 :: (B0 ++ c1 :: (B1 ++ c2 :: (B2 ++ c3 :: B3))))
        [c0, c1, c2, c3] =
      .ok [⟨c0 :: (B0 ++ [c1]), false⟩, ⟨c1 :: (B1 ++ [c2]), false⟩,
           ⟨c2 :: (B2 ++ [c3]), false⟩, ⟨c3 :: (B3 ++ [c0]), false⟩] := by
  obtain ⟨h0, h1, h2, h3⟩ := h
  have hfinal :
      walkFinal (c0 :: (B0 ++ c1 :: (B1 ++ c2 :: (B2 ++ c3 :: B3))))
          [c0, c1, c2, c3] =
        ⟨[c0 :: (B0 ++ [c1]), c1 :: (B1 ++ [c2]), c2 :: (B2 ++ [c3]),
          c3 :: (B3 ++ [c0])], [c0], [], false⟩ := by
    unfold walkFinal
    have hseg :
        (c0 :: (B0 ++ c1 :: (B1 ++ c2 :: (B2 ++ c3 :: B3)))) ++
            (c0 :: (B0 ++ c1 :: (B1 ++ c2 :: (B2 ++ c3 :: B3)))).take 1 =
          ((c0 :: B0) ++ [c1]) ++ ((B1 ++ [c2]) ++ ((B2 ++ [c3]) ++
            (B3 ++ [c0]))) := by
      simp
    rw [hseg, List.foldl_append, List.foldl_append, List.foldl_append]
    rw [foldl_walkStep_block (c0 :: B0) c1 c1.point
      [c2.point, c3.point, c0.point] _ rfl (by simp [rotate1]) h0
      (isClose_refl _)]
    rw [foldl_walkStep_block B1 c2 c2.point [c3.point, c0.point] _ rfl rfl h1
      (isClose_refl _)]
    rw [foldl_walkStep_block B2 c3 c3.point [c0.point] _ rfl rfl h2
      (isClose_refl _)]
    rw [foldl_walkStep_block B3 c0 c0.point [] _ rfl rfl h3 (isClose_refl _)]
    simp
  unfold getOutlineSides
  simp only [hfinal]
  rfl

/-! ### Adjacent sides share their cut segment -/

/-- When the produced sides are all nonempty and the group's head is the last
side's last segment, the group is nonempty. -/
theorem group_ne_of_inv (st : WalkState) (hne : ∀ l ∈ st.sides, l ≠ [])
    (h1 : st.group.head? = lastOfLast st) (hs : st.sides ≠ []) :
    st.group ≠ [] := by
  rcases hlast : st.sides.getLast? with _ | last
  · exact absurd (List.getLast?_eq_none_iff.mp hlast) hs
  · have hlne : last ≠ [] := hne last (List.mem_of_getLast?_eq_some hlast)
    rcases hl2 : last.getLast? with _ | z
    · exact absurd (List.getLast?_eq_none_iff.mp hl2) hlne
    · intro hg
      rw [hg] at h1
      simp [lastOfLast, hlast, hl2] at h1

theorem walkStep_inv (st : WalkState) (s : Seg) (h : WalkInv st) :
    WalkInv (walkStep st s) := by
  obtain ⟨hchain, hne, hgrp⟩ := h
  by_cases hcr : st.crashed = true
  · rw [walkStep_crashed st s hcr]
    exact ⟨hchain, hne, hgrp⟩
  · have hcr' : st.crashed = false := by simpa using hcr
    rcases ht : st.targets with _ | ⟨t, rest⟩
    · have hstep : walkStep st s = { st with crashed := true } := by
        simp [walkStep, hcr', ht]
      rw [hstep]
      exact ⟨hchain, hne, hgrp⟩
    · by_cases hm : isClose t s.point = true
      · rw [walkStep_match st s t rest hcr' ht hm]
        refine ⟨?_, ?_, ?_⟩
        · show List.Chain' sideRel (st.sides ++ [st.group ++ [s]])
          rw [List.chain'_append]
          refine ⟨hchain, List.chain'_singleton _, ?_⟩
          intro x hx y hy
          simp only [List.head?_cons, Option.mem_def, Option.some.injEq] at hy
          subst hy
          have hs : st.sides ≠ [] := by
            intro hnil
            rw [hnil] at hx
            simp at hx
          have h1 := hgrp hs
          rw [sideRel,
            List.head?_append_of_ne_nil _ (group_ne_of_inv st hne h1 hs), h1,
            lastOfLast]
          simp only [Option.mem_def] at hx
          rw [hx]
          rfl
        · intro l hl
          rcases List.mem_append.mp hl with hl | hl
          · exact hne l hl
          · simp only [List.mem_singleton] at hl
            subst hl
            simp
        · intro _
          simp [lastOfLast, List.getLast?_concat]
      · have hm' : isClose t s.point = false := by simpa using hm
        rw [walkStep_no_match st s t rest hcr' ht hm']
        refine ⟨hchain, hne, ?_⟩
        intro hs
        have hs' : st.sides ≠ [] := hs
        have h1 := hgrp hs'
        show (st.group ++ [s]).head? = lastOfLast { st with group := st.group ++ [s] }
        rw [List.head?_append_of_ne_nil _ (group_ne_of_inv st hne h1 hs')]
        exact h1

theorem foldl_walkStep_inv (l : List Seg) (st : WalkState) (h : WalkInv st) :
    WalkInv (l.foldl walkStep st) := by
  induction l generalizing st with
  | nil => exact h
  | cons x xs ih => exact ih _ (walkStep_inv st x h)

theorem walkFinal_inv (outline corners : List Seg) :
    WalkInv (walkFinal outline corners) := by
  unfold walkFinal
  exact foldl_walkStep_inv _ _ ⟨List.chain'_nil, by simp, by simp⟩

/-- Whenever the decomposition succeeds, consecutive returned sides chain
through their shared corner segment. -/
theorem getOutlineSides_chain (outline corners : List Seg)
    (sides : List PaperPath)
    (h : getOutlineSides outline corners = .ok sides) :
    List.Chain' (fun a b => b.segments.head? = a.segments.getLast?) sides := by
  cases outline with
  | nil => exact absurd h (by simp [getOutlineSides])
  | cons s rest =>
    have hinv := walkFinal_inv (s :: rest) corners
    rw [getOutlineSides] at h
    by_cases hcr : (walkFinal (s :: rest) corners).crashed
    · simp [hcr] at h
    · by_cases hlen : (walkFinal (s :: rest) corners).sides.length ≠ 4
      · simp [hcr, hlen] at h
      · simp only [hcr, Bool.false_eq_true, if_false, hlen, if_false,
          Except.ok.injEq] at h
        subst h
        rw [List.chain'_map]
        exact hinv.1

/-! ### Claim C2: decomposition of a valid frame -/

/-- C2 (amended): for every valid outline frame with 4 corner-tagged vertices,
getOutlineSides returns exactly 4 open boundary sides; concatenating those 4
sides in contour order, after dropping each later side's duplicated leading
corner segment and the final wrap-around repeat of the starting corner,
reconstructs the original frame's vertex sequence exactly.  The walk starts at
the arbitrarily chosen corner c0 and closes a side every time the next corner
in the target-corner queue is matched. -/
theorem getOutlineSides_fourSides_reconstruct (c0 c1 c2 c3 : Seg)
    (B0 B1 B2 B3 : List Seg) (h : ValidFrame c0 c1 c2 c3 B0 B1 B2 B3) :
    ∃ sides : List PaperPath,
      getOutlineSides (c0 :: (B0 ++ c1 :: (B1 ++ c2 :: (B2 ++ c3 :: B3))))
          [c0, c1, c2, c3] = .ok sides ∧
      sides.length = 4 ∧
      (∀ p ∈ sides, p.closed = false) ∧
      (joinSides sides).dropLast =
        c0 :: (B0 ++ c1 :: (B1 ++ c2 :: (B2 ++ c3 :: B3))) := by
  refine ⟨[⟨c0 :: (B0 ++ [c1]), false⟩, ⟨c1 :: (B1 ++ [c2]), false⟩,
           ⟨c2 :: (B2 ++ [c3]), false⟩, ⟨c3 :: (B3 ++ [c0]), false⟩],
    getOutlineSides_validFrame c0 c1 c2 c3 B0 B1 B2 B3 h, rfl, ?_, ?_⟩
  · intro p hp
    simp only [List.mem_cons, List.not_mem_nil, or_false] at hp
    rcases hp with h' | h' | h' | h' <;> subst h' <;> rfl
  · have : joinSides [⟨c0 :: (B0 ++ [c1]), false⟩, ⟨c1 :: (B1 ++ [c2]), false⟩,
        ⟨c2 :: (B2 ++ [c3]), false⟩, ⟨c3 :: (B3 ++ [c0]), false⟩] =
        (c0 :: (B0 ++ c1 :: (B1 ++ c2 :: (B2 ++ c3 :: B3)))) ++ [c0] := by
      simp [joinSides]
    rw [this, List.dropLast_concat]

/-- C2 witness: the square frame is valid and the amended decomposition
round-trip holds on it. -/
theorem getOutlineSides_fourSides_reconstruct_witness :
    ValidFrame sq0 sq1 sq2 sq3 [] [] [] [] ∧
    ∃ sides : List PaperPath,
      getOutlineSides (sq0 :: ([] ++ sq1 :: ([] ++ sq2 :: ([] ++ sq3 :: []))))
          [sq0, sq1, sq2, sq3] = .ok sides ∧
      sides.length = 4 ∧
      (∀ p ∈ sides, p.closed = false) ∧
      (joinSides sides).dropLast =
        sq0 :: ([] ++ sq1 :: ([] ++ sq2 :: ([] ++ sq3 :: []))) :=
  ⟨by with_unfolding_all decide,
   getOutlineSides_fourSides_reconstruct sq0 sq1 sq2 sq3 [] [] [] []
     (by with_unfolding_all decide)⟩

/-- C2 counterexample: on the square frame the decomposition succeeds with 4
sides, but the plain concatenation of the sides' segment sequences is not the
frame's vertex sequence: the shared corner segments are duplicated and the
wrap-around repeat of the first corner is appended. -/
theorem getOutlineSides_concat_counterexample :
    getOutlineSides squareOutline squareCorners = .ok squareSidesList ∧
    (squareSidesList.map (·.segments)).flatten ≠ squareOutline :=
  ⟨by with_unfolding_all rfl, by with_unfolding_all decide⟩

/-! ### Claim C3: the walk returns 4 sides or fails -/

/-- C3 (amended): for every outline frame the decomposition walk either
returns exactly 4 sides, or raises the decomposition failure, or fails with a
type error (empty outline, or a segment processed after the corner queue is
exhausted); for a nonempty frame whose walk does not crash, it raises the
decomposition failure if and only if the number of sides accumulated at the
end of the walk differs from 4. -/
theorem walk_result_cases (outline corners : List Seg) :
    ((∃ sides, getOutlineSides outline corners = .ok sides ∧
        sides.length = 4)
      ∨ getOutlineSides outline corners = .error .failedToGetSides
      ∨ getOutlineSides outline corners = .error .typeError)
    ∧ (outline ≠ [] → (walkFinal outline corners).crashed = false →
        (getOutlineSides outline corners = .error .failedToGetSides ↔
          (walkFinal outline corners).sides.length ≠ 4)) := by
  cases outline with
  | nil =>
    refine ⟨.inr (.inr rfl), ?_⟩
    intro h
    exact absurd rfl h
  | cons s rest =>
    rw [getOutlineSides]
    by_cases hcr : (walkFinal (s :: rest) corners).crashed
    · refine ⟨?_, ?_⟩
      · simp [hcr]
      · intro _ hcr'
        rw [hcr'] at hcr
        simp at hcr
    · have hcr' : (walkFinal (s :: rest) corners).crashed = false := by
        simpa using hcr
      by_cases hlen : (walkFinal (s :: rest) corners).sides.length = 4
      · refine ⟨?_, ?_⟩
        · refine .inl ⟨(walkFinal (s :: rest) corners).sides.map
            (fun g => ⟨g, false⟩), ?_, ?_⟩
          · simp [hcr', hlen]
          · simp [hlen]
        · intro _ _
          constructor
          · intro habs
            simp [hcr', hlen] at habs
          · intro habs
            exact absurd hlen habs
      · refine ⟨.inr (.inl ?_), ?_⟩
        · simp [hcr', hlen]
        · intro _ _
          constructor
          · intro _
            exact hlen
          · intro _
            simp [hcr', hlen]

/-- C3 witness: on the square frame the walk does not crash and the
characterization applies, yielding the 4-side success case. -/
theorem walk_result_cases_witness :
    ((∃ sides, getOutlineSides squareOutline squareCorners = .ok sides ∧
        sides.length = 4)
      ∨ getOutlineSides squareOutline squareCorners = .error .failedToGetSides
      ∨ getOutlineSides squareOutline squareCorners = .error .typeError)
    ∧ (getOutlineSides squareOutline squareCorners =
          .error .failedToGetSides ↔
        (walkFinal squareOutline squareCorners).sides.length ≠ 4) :=
  ⟨(walk_result_cases squareOutline squareCorners).1,
   (walk_result_cases squareOutline squareCorners).2
     (by with_unfolding_all decide) (by with_unfolding_all rfl)⟩

/-- C3 counterexample: a frame with an extra vertex lying exactly on corner 0
exhausts the corner queue one segment before the wrap-around ends; the code
then dereferences an undefined target corner and fails with a type error even
though exactly 4 sides were accumulated, so the walk neither returns the 4
sides nor raises the decomposition failure. -/
theorem walk_typeError_counterexample :
    getOutlineSides (squareOutline ++ [⟨4, ⟨0, 0⟩⟩]) squareCorners =
      .error .typeError ∧
    (walkFinal (squareOutline ++ [⟨4, ⟨0, 0⟩⟩]) squareCorners).sides.length =
      4 :=
  ⟨by with_unfolding_all rfl, by with_unfolding_all rfl⟩

/-! ### Claim C9: consecutive sides overlap at their shared corner -/

/-- C9: whenever the decomposition succeeds, every boundary side after the
first begins with the exact segment at which the previous side was closed, so
each corner point is shared by the two adjacent sides. -/
theorem sides_overlap_at_corners (outline corners : List Seg)
    (sides : List PaperPath)
    (h : getOutlineSides outline corners = .ok sides) (i : ℕ)
    (hi : i + 1 < sides.length) :
    (sides.getD (i + 1) default).segments.head? =
      (sides.getD i default).segments.getLast? := by
  have hchain := getOutlineSides_chain outline corners sides h
  rw [List.chain'_iff_get] at hchain
  have hrel := hchain i (by omega)
  rw [List.getD_eq_getElem _ _ hi,
    List.getD_eq_getElem _ _ (Nat.lt_of_succ_lt hi)]
  simpa using hrel

/-- C9 witness: on the square frame, side 1 begins with the segment that
closed side 0. -/
theorem sides_overlap_at_corners_witness :
    (squareSidesList.getD 1 default).segments.head? =
      (squareSidesList.getD 0 default).segments.getLast? :=
  sides_overlap_at_corners squareOutline squareCorners squareSidesList
    (by with_unfolding_all rfl) 0 (by decide)

/-! ### Claim C5: PathSection arc-length window -/

/-- C5: PathSection.getPointAt returns the point of the underlying curve at
arc length offset + d measured from the curve's start, with the query clamped
to the curve's true length, so a distance at or past the end of the window
still yields a point on the curve. -/
theorem pathSection_pointAt_clamped (s : PathSection) (d : ℚ)
    (h : 0 ≤ s.path.length) :
    s.getPointAt d =
      s.path.sample (max 0 (min (s.offset + d) s.path.length)) ∧
    OnCurve (s.getPointAt d) s.path := by
  constructor
  · unfold PathSection.getPointAt Curvelike.getPointAt
    rw [add_comm]
  · exact ⟨max 0 (min (d + s.offset) s.path.length), le_max_left _ _,
      max_le h (min_le_right _ _), rfl⟩

/-- C5 witness: querying the window at distance 100, far past its end, yields
the clamped sample, a point on the curve — concretely the curve's endpoint
(10, 0). -/
theorem pathSection_pointAt_clamped_witness :
    (0 ≤ witnessSection.path.length) ∧
    (witnessSection.getPointAt 100 =
        witnessSection.path.sample
          (max 0 (min (witnessSection.offset + 100)
            witnessSection.path.length)) ∧
      OnCurve (witnessSection.getPointAt 100) witnessSection.path) ∧
    witnessSection.getPointAt 100 = ⟨10, 0⟩ :=
  ⟨by norm_num [witnessSection, witnessCurve],
   pathSection_pointAt_clamped witnessSection 100
     (by norm_num [witnessSection, witnessCurve]),
   by with_unfolding_all rfl⟩

/-! ### Claim C1: the sandwich projection -/

/-- C1: the projection built by sandwichPathProjection satisfies
project(u, v) = lerp(top.pointAt(u x topLength), bottom.pointAt(u x
bottomLength), v); in particular, for u in [0,1], project(u, 0) is the top
curve's point at arc length u x topLength — a point on top — and
project(u, 1) is the bottom curve's point at arc length u x bottomLength — a
point on bottom. -/
theorem sandwichProjection_spec (top bottom : Curvelike) (u v : ℚ)
    (h0 : 0 ≤ u) (h1 : u ≤ 1) (ht : 0 ≤ top.length)
    (hb : 0 ≤ bottom.length) :
    sandwichPathProjection top bottom u v =
      lerp (top.getPointAt (u * top.length))
        (bottom.getPointAt (u * bottom.length)) v ∧
    sandwichPathProjection top bottom u 0 = top.sample (u * top.length) ∧
    sandwichPathProjection top bottom u 1 =
      bottom.sample (u * bottom.length) ∧
    OnCurve (sandwichPathProjection top bottom u 0) top ∧
    OnCurve (sandwichPathProjection top bottom u 1) bottom := by
  have hclamp : ∀ c : Curvelike, 0 ≤ c.length →
      max 0 (min (u * c.length) c.length) = u * c.length := by
    intro c hc
    rw [min_eq_left, max_eq_right]
    · exact mul_nonneg h0 hc
    · calc u * c.length ≤ 1 * c.length := mul_le_mul_of_nonneg_right h1 hc
        _ = c.length := one_mul _
  have htop : sandwichPathProjection top bottom u 0 =
      top.sample (u * top.length) := by
    unfold sandwichPathProjection lerp Curvelike.getPointAt
    rw [hclamp top ht]
    ext <;> simp
  have hbot : sandwichPathProjection top bottom u 1 =
      bottom.sample (u * bottom.length) := by
    unfold sandwichPathProjection lerp Curvelike.getPointAt
    rw [hclamp bottom hb]
    ext <;> ring
  refine ⟨rfl, htop, hbot, ?_, ?_⟩
  · exact ⟨u * top.length, mul_nonneg h0 ht,
      by calc u * top.length ≤ 1 * top.length :=
            mul_le_mul_of_nonneg_right h1 ht
          _ = top.length := one_mul _,
      htop⟩
  · exact ⟨u * bottom.length, mul_nonneg h0 hb,
      by calc u * bottom.length ≤ 1 * bottom.length :=
            mul_le_mul_of_nonneg_right h1 hb
          _ = bottom.length := one_mul _,
      hbot⟩

/-- C1 witness: the projection between the two concrete witness curves at
u = 1/2, v = 1/3. -/
theorem sandwichProjection_spec_witness :
    ((0:ℚ) ≤ 1/2 ∧ (1:ℚ)/2 ≤ 1 ∧ 0 ≤ witnessCurve.length ∧
      0 ≤ witnessBottomCurve.length) ∧
    (sandwichPathProjection witnessCurve witnessBottomCurve (1/2) (1/3) =
      lerp (witnessCurve.getPointAt ((1/2) * witnessCurve.length))
        (witnessBottomCurve.getPointAt
          ((1/2) * witnessBottomCurve.length)) (1/3) ∧
     sandwichPathProjection witnessCurve witnessBottomCurve (1/2) 0 =
       witnessCurve.sample ((1/2) * witnessCurve.length) ∧
     sandwichPathProjection witnessCurve witnessBottomCurve (1/2) 1 =
       witnessBottomCurve.sample ((1/2) * witnessBottomCurve.length) ∧
     OnCurve (sandwichPathProjection witnessCurve witnessBottomCurve (1/2) 0)
       witnessCurve ∧
     OnCurve (sandwichPathProjection witnessCurve witnessBottomCurve (1/2) 1)
       witnessBottomCurve) :=
  ⟨⟨by norm_num, by norm_num, by norm_num [witnessCurve],
    by norm_num [witnessBottomCurve]⟩,
   sandwichProjection_spec witnessCurve witnessBottomCurve (1/2) (1/3)
     (by norm_num) (by norm_num) (by norm_num [witnessCurve])
     (by norm_num [witnessBottomCurve])⟩

/-! ### Claims C4 and C6: the arrangement pass -/

theorem updateMidpiontMarkers_fields (st : SPState) :
    (updateMidpiontMarkers st).sourcePath = st.sourcePath ∧
    (updateMidpiontMarkers st).outline = st.outline ∧
    (updateMidpiontMarkers st).corners = st.corners ∧
    (updateMidpiontMarkers st).displayPath = st.displayPath ∧
    (updateMidpiontMarkers st).nextId = st.nextId ∧
    (updateMidpiontMarkers st).engine = st.engine :=
  ⟨rfl, rfl, rfl, rfl, rfl, rfl⟩

/-- C4: when the decomposition of the current frame fails, the whole
arrangement pass aborts with that error, and the state at the abort point
keeps the display path unchanged from before the attempt. -/
theorem arrange_abort_keeps_display (st : SPState) (e : SidesError)
    (h : getOutlineSides st.outline st.corners = .error e) :
    arrangeContents st = .error e ∧
    (tryArrangeContents st).displayPath = st.displayPath := by
  have harr : arrangeContents st = .error e := by
    unfold arrangeContents arrangePath updateMidpiontMarkers
    dsimp only
    rw [h]
  refine ⟨harr, ?_⟩
  unfold tryArrangeContents
  rw [harr]
  rfl

/-- C4 witness: on the corrupted frame (only 3 corners match during the
walk) the pass aborts with the decomposition failure and the display path is
unchanged. -/
theorem arrange_abort_keeps_display_witness :
    arrangeContents corruptedState = .error .failedToGetSides ∧
    (tryArrangeContents corruptedState).displayPath =
      corruptedState.displayPath :=
  arrange_abort_keeps_display corruptedState .failedToGetSides
    (by with_unfolding_all rfl)

/-- C6: calling arrangeContents twice with no intervening edit produces
bit-identical display artwork both times: the second pass, recomputed from
the unchanged sourcePath and outline, succeeds and yields exactly the same
display path as the first. -/
theorem arrangeContents_idempotent (st st1 : SPState)
    (h : arrangeContents st = .ok st1) :
    ∃ st2, arrangeContents st1 = .ok st2 ∧
      st2.displayPath = st1.displayPath := by
  unfold arrangeContents arrangePath updateMidpiontMarkers at h ⊢
  dsimp only at h ⊢
  cases hsides : getOutlineSides st.outline st.corners with
  | error e => rw [hsides] at h; exact absurd h (by simp)
  | ok sides =>
    rw [hsides] at h
    simp only [Except.ok.injEq] at h
    subst h
    dsimp only
    rw [hsides]
    exact ⟨_, rfl, rfl⟩

/-- C6 witness: the freshly constructed square state arranges successfully,
and re-arranging the arranged state reproduces the same display path. -/
theorem arrangeContents_idempotent_witness :
    ∃ st2, arrangeContents squareArranged = .ok st2 ∧
      st2.displayPath = squareArranged.displayPath :=
  arrangeContents_idempotent squareState squareArranged
    (by with_unfolding_all rfl)

/-! ### Claims C7 and C8: frame edits and corner invariants -/

theorem arrangeContents_ok_fields (st st1 : SPState)
    (h : arrangeContents st = .ok st1) :
    st1.sourcePath = st.sourcePath ∧ st1.outline = st.outline ∧
    st1.corners = st.corners ∧ st1.nextId = st.nextId ∧
    st1.engine = st.engine := by
  unfold arrangeContents arrangePath updateMidpiontMarkers at h
  dsimp only at h
  cases hsides : getOutlineSides st.outline st.corners with
  | error e => rw [hsides] at h; exact absurd h (by simp)
  | ok sides =>
    rw [hsides] at h
    simp only [Except.ok.injEq] at h
    subst h
    exact ⟨rfl, rfl, rfl, rfl, rfl⟩

theorem tryArrangeContents_fields (st : SPState) :
    (tryArrangeContents st).sourcePath = st.sourcePath ∧
    (tryArrangeContents st).outline = st.outline ∧
    (tryArrangeContents st).corners = st.corners ∧
    (tryArrangeContents st).nextId = st.nextId ∧
    (tryArrangeContents st).engine = st.engine := by
  unfold tryArrangeContents
  cases harr : arrangeContents st with
  | ok stNew => exact arrangeContents_ok_fields st stNew harr
  | error e => exact ⟨rfl, rfl, rfl, rfl, rfl⟩

theorem movePt_id (sid : ℕ) (p : Pt) (s : Seg) :
    (movePt sid p s).id = s.id := by
  unfold movePt
  split <;> rfl

theorem applyEdit_corner_ids (st : SPState) (op : EditOp) :
    (applyEdit st op).corners.map (·.id) = st.corners.map (·.id) := by
  cases op with
  | drag sid p =>
    have hred : applyEdit st (.drag sid p) =
        tryArrangeContents
          { st with outline := st.outline.map (movePt sid p)
                    corners := st.corners.map (movePt sid p) } := rfl
    rw [hred, (tryArrangeContents_fields _).2.2.1]
    dsimp only
    rw [List.map_map]
    exact List.map_congr_left (fun s _ => movePt_id sid p s)
  | insertMidpoint c p =>
    have hred : applyEdit st (.insertMidpoint c p) =
        if c ∈ midpointHandleCurves st.outline st.corners then
          tryArrangeContents
            { st with
                outline := insertAfter c.1.id ⟨st.nextId, p⟩ st.outline
                nextId := st.nextId + 1 }
        else st := rfl
    rw [hred]
    by_cases hmem : c ∈ midpointHandleCurves st.outline st.corners
    · rw [if_pos hmem, (tryArrangeContents_fields _).2.2.1]
    · rw [if_neg hmem]

/-- C7: no sequence of midpoint insertions and corner drags ever changes the
corners collection: after any edit sequence the corners still reference the
same 4 segment objects (same ids, never added to, removed from, or
re-targeted), so the corner count stays exactly 4. -/
theorem corners_never_change (st : SPState) (ops : List EditOp)
    (h : st.corners.length = 4) :
    (applyEdits st ops).corners.map (·.id) = st.corners.map (·.id) ∧
    (applyEdits st ops).corners.length = 4 := by
  have hids : (applyEdits st ops).corners.map (·.id) =
      st.corners.map (·.id) := by
    clear h
    unfold applyEdits
    induction ops generalizing st with
    | nil => rfl
    | cons op ops ih =>
      rw [List.foldl_cons]
      rw [ih (applyEdit st op)]
      exact applyEdit_corner_ids st op
  refine ⟨hids, ?_⟩
  have := congrArg List.length hids
  simpa [h] using this

/-- C7 witness: dragging corner 2 and then inserting a midpoint on the top
side leaves the square frame's corner collection untouched. -/
theorem corners_never_change_witness :
    squareState.corners.length = 4 ∧
    ((applyEdits squareState
        [.drag 2 ⟨20, 10⟩, .insertMidpoint (sq0, sq1) ⟨5, 0⟩]).corners.map
          (·.id) =
        squareState.corners.map (·.id) ∧
      (applyEdits squareState
        [.drag 2 ⟨20, 10⟩,
         .insertMidpoint (sq0, sq1) ⟨5, 0⟩]).corners.length = 4) :=
  ⟨rfl, corners_never_change squareState
    [.drag 2 ⟨20, 10⟩, .insertMidpoint (sq0, sq1) ⟨5, 0⟩] rfl⟩

/-- C8: if fewer than 4 distinct corners are supplied, both mutation entry
points reject the mutation before any arrangement pass is attempted: the
state — in particular the outline frame and the display artwork — is left
completely unchanged. -/
theorem invalid_frame_rejected (st : SPState) (sid : ℕ) (p : Pt)
    (c : Seg × Seg)
    (hmoved : distinctCornerCount (st.corners.map (movePt sid p)) < 4)
    (hcur : distinctCornerCount st.corners < 4) :
    onCornerMoved st sid p = st ∧ onMidpointInserted st c p = st := by
  constructor
  · unfold onCornerMoved
    dsimp only
    rw [if_pos hmoved]
  · unfold onMidpointInserted
    rw [if_pos hcur]

/-- C8 witness: on the degenerate frame with corner 1 collapsed onto corner
0 (3 distinct corner points), both entry points refuse the mutation and the
state is unchanged. -/
theorem invalid_frame_rejected_witness :
    (distinctCornerCount (degenerateState.corners.map (movePt 99 ⟨7, 7⟩)) <
        4 ∧
      distinctCornerCount degenerateState.corners < 4) ∧
    (onCornerMoved degenerateState 99 ⟨7, 7⟩ = degenerateState ∧
      onMidpointInserted degenerateState (sq0, sq1) ⟨7, 7⟩ =
        degenerateState) :=
  ⟨⟨by with_unfolding_all decide, by with_unfolding_all decide⟩,
   invalid_frame_rejected degenerateState 99 ⟨7, 7⟩ (sq0, sq1)
     (by with_unfolding_all decide) (by with_unfolding_all decide)⟩

/-! ### Claim C10: midpoint affordances only on top and bottom -/

theorem chainCurves_cons_cons (a b : Seg) (l : List Seg) :
    chainCurves (a :: b :: l) = (a, b) :: chainCurves (b :: l) := rfl

theorem zip_tail_wrap (xs : List Seg) : ∀ (x z : Seg),
    (x :: xs).zip (xs ++ [z]) =
      chainCurves (x :: xs) ++ [((x :: xs).getLast (List.cons_ne_nil x xs), z)] := by
  induction xs with
  | nil => intro x z; rfl
  | cons y ys ih =>
    intro x z
    have h1 : (x :: y :: ys).zip ((y :: ys) ++ [z]) =
        (x, y) :: (y :: ys).zip (ys ++ [z]) := rfl
    rw [h1, ih y z, chainCurves_cons_cons]
    simp [List.getLast_cons]

theorem outlineCurves_cons (x : Seg) (xs : List Seg) :
    outlineCurves (x :: xs) =
      chainCurves (x :: xs) ++
        [((x :: xs).getLast (List.cons_ne_nil x xs), x)] := by
  unfold outlineCurves rotate1
  exact zip_tail_wrap xs x x

theorem chainCurves_append (A : List Seg) : ∀ (a b : Seg) (C : List Seg),
    chainCurves ((a :: A) ++ b :: C) =
      chainCurves (a :: A) ++
        ((a :: A).getLast (List.cons_ne_nil a A), b) :: chainCurves (b :: C) := by
  induction A with
  | nil => intro a b C; rfl
  | cons y A ih =>
    intro a b C
    have h1 : ((a :: y :: A) ++ b :: C) = a :: ((y :: A) ++ b :: C) := rfl
    rw [h1]
    have h2 : chainCurves (a :: ((y :: A) ++ b :: C)) =
        (a, y) :: chainCurves ((y :: A) ++ b :: C) := rfl
    rw [h2, ih y b C, chainCurves_cons_cons]
    simp [List.getLast_cons]

theorem mem_chainCurves_fst (x y : Seg) : ∀ (l : List Seg),
    (x, y) ∈ chainCurves l → x ∈ l.dropLast := by
  intro l
  induction l with
  | nil => intro h; exact absurd h (by simp [chainCurves])
  | cons a l ih =>
    cases l with
    | nil => intro h; exact absurd h (by simp [chainCurves])
    | cons b m =>
      intro h
      rw [chainCurves_cons_cons] at h
      rcases List.mem_cons.mp h with h | h
      · rw [Prod.mk.injEq] at h
        simp [h.1]
      · have := ih h
        simp only [List.dropLast_cons₂, List.mem_cons]
        right
        simpa using this

theorem insertAfter_cons_shape (sid : ℕ) (s x : Seg) (xs : List Seg) :
    insertAfter sid s (x :: xs) =
      x :: (if x.id = sid then s :: xs else insertAfter sid s xs) := by
  by_cases hx : x.id = sid
  · simp [insertAfter, hx]
  · simp [insertAfter, hx]

theorem insertAfter_append_left (sid : ℕ) (s : Seg) (l₂ : List Seg) :
    ∀ l₁ : List Seg, sid ∈ l₁.map (·.id) →
      insertAfter sid s (l₁ ++ l₂) = insertAfter sid s l₁ ++ l₂ := by
  intro l₁
  induction l₁ with
  | nil => intro h; exact absurd h (by simp)
  | cons x xs ih =>
    intro h
    rw [List.cons_append, insertAfter_cons_shape, insertAfter_cons_shape]
    by_cases hx : x.id = sid
    · rw [if_pos hx, if_pos hx]
      rfl
    · have h' : sid = x.id ∨ sid ∈ xs.map (·.id) := by
        simpa only [List.map_cons, List.mem_cons] using h
      rcases h' with h' | h'
      · exact absurd h'.symm hx
      · rw [if_neg hx, if_neg hx, List.cons_append, ih h']

theorem insertAfter_append_right (sid : ℕ) (s : Seg) (l₂ : List Seg) :
    ∀ l₁ : List Seg, sid ∉ l₁.map (·.id) →
      insertAfter sid s (l₁ ++ l₂) = l₁ ++ insertAfter sid s l₂ := by
  intro l₁
  induction l₁ with
  | nil => intro _; rfl
  | cons x xs ih =>
    intro h
    rw [List.cons_append, insertAfter_cons_shape]
    have hx : x.id ≠ sid := by
      intro hcontra
      exact h (by simp [hcontra])
    rw [if_neg hx, ih (by intro hmem; exact h (by simp [hmem])),
      List.cons_append]

theorem insertAfter_perm (sid : ℕ) (s : Seg) : ∀ (l : List Seg),
    sid ∈ l.map (·.id) → (insertAfter sid s l).Perm (s :: l) := by
  intro l
  induction l with
  | nil => intro h; exact absurd h (by simp)
  | cons x xs ih =>
    intro h
    rw [insertAfter_cons_shape]
    by_cases hx : x.id = sid
    · rw [if_pos hx]
      exact List.Perm.swap s x xs
    · rw [if_neg hx]
      have hmem : sid ∈ xs.map (·.id) := by
        have h' : sid = x.id ∨ sid ∈ xs.map (·.id) := by
          simpa only [List.map_cons, List.mem_cons] using h
        rcases h' with h' | h'
        · exact absurd h'.symm hx
        · exact h'
      exact (List.Perm.cons x (ih hmem)).trans (List.Perm.swap s x xs)

theorem map_id_ne (l₁ l₂ : List Seg)
    (h : ((l₁ ++ l₂).map (·.id)).Nodup) {x y : Seg}
    (hx : x ∈ l₁) (hy : y ∈ l₂) : x.id ≠ y.id := by
  rw [List.map_append, List.nodup_append] at h
  intro he
  apply h.2.2 (List.mem_map_of_mem _ hx)
  rw [he]
  exact List.mem_map_of_mem _ hy

theorem wf_id_facts (s0 s1 s2 s3 : Seg) (T B : List Seg)
    (hnodup : ((s0 :: (T ++ s1 :: s2 :: (B ++ [s3]))).map (·.id)).Nodup) :
    (∀ s ∈ s0 :: T, s.id ≠ s1.id ∧ s.id ≠ s3.id) ∧
    (∀ s ∈ s2 :: B, s.id ≠ s1.id ∧ s.id ≠ s3.id) := by
  have hsplit1 : s0 :: (T ++ s1 :: s2 :: (B ++ [s3])) =
      (s0 :: T) ++ (s1 :: s2 :: (B ++ [s3])) := by simp
  have hn1 : (((s0 :: T) ++ (s1 :: s2 :: (B ++ [s3]))).map (·.id)).Nodup := by
    rw [← hsplit1]
    exact hnodup
  have hn2 : ((s1 :: s2 :: (B ++ [s3])).map (·.id)).Nodup := by
    rw [List.map_append] at hn1
    exact hn1.of_append_right
  have hn3 : ((s2 :: (B ++ [s3])).map (·.id)).Nodup := by
    rw [List.map_cons] at hn2
    exact hn2.of_cons
  constructor
  · intro s hs
    refine ⟨map_id_ne _ _ hn1 hs (by simp), map_id_ne _ _ hn1 hs (by simp)⟩
  · intro s hs
    have hs' : s ∈ s2 :: (B ++ [s3]) := by
      rcases List.mem_cons.mp hs with h' | h'
      · simp [h']
      · simp [h']
    constructor
    · exact (map_id_ne [s1] (s2 :: (B ++ [s3])) hn2 (by simp) hs').symm
    · have hsplit3 : s2 :: (B ++ [s3]) = (s2 :: B) ++ [s3] := by simp
      have hn4 : (((s2 :: B) ++ [s3]).map (·.id)).Nodup := by
        rw [← hsplit3]
        exact hn3
      exact map_id_ne (s2 :: B) [s3] hn4 hs (by simp)

theorem zip_concat_wrap (m : List Seg) : ∀ (x z w : Seg),
    (x :: (m ++ [z])).zip ((m ++ [z]) ++ [w]) =
      chainCurves (x :: (m ++ [z])) ++ [(z, w)] := by
  induction m with
  | nil => intro x z w; rfl
  | cons y ys ih =>
    intro x z w
    have h1 : (x :: ((y :: ys) ++ [z])).zip (((y :: ys) ++ [z]) ++ [w]) =
        (x, y) :: (y :: (ys ++ [z])).zip ((ys ++ [z]) ++ [w]) := rfl
    rw [h1, ih y z w]
    rfl

theorem outlineCurves_concat (m : List Seg) (x z : Seg) :
    outlineCurves (x :: (m ++ [z])) =
      chainCurves (x :: (m ++ [z])) ++ [(z, x)] := by
  unfold outlineCurves rotate1
  exact zip_concat_wrap m x z x

theorem chainCurves_concat_append (m : List Seg) : ∀ (a e b : Seg)
    (C : List Seg),
    chainCurves ((a :: (m ++ [e])) ++ b :: C) =
      chainCurves (a :: (m ++ [e])) ++ (e, b) :: chainCurves (b :: C) := by
  induction m with
  | nil => intro a e b C; rfl
  | cons y ys ih =>
    intro a e b C
    have h1 : ((a :: ((y :: ys) ++ [e])) ++ b :: C) =
        a :: (((y :: ys) ++ [e]) ++ b :: C) := rfl
    have h2 : ((y :: ys) ++ [e]) ++ b :: C = (y :: (ys ++ [e])) ++ b :: C := by
      simp
    rw [h1, h2]
    have h3 : chainCurves (a :: ((y :: (ys ++ [e])) ++ b :: C)) =
        (a, y) :: chainCurves ((y :: (ys ++ [e])) ++ b :: C) := rfl
    rw [h3, ih y e b C]
    rfl

theorem segIsCorner_eval (x s0 s1 s2 s3 : Seg) :
    segIsCorner x [s0, s1, s2, s3] 1 = (x.id == s1.id) ∧
    segIsCorner x [s0, s1, s2, s3] 3 = (x.id == s3.id) := ⟨rfl, rfl⟩

theorem handle_pred_true (x : Seg × Seg) (s0 s1 s2 s3 : Seg)
    (h1 : x.1.id ≠ s1.id) (h3 : x.1.id ≠ s3.id) :
    (!(segIsCorner x.1 [s0, s1, s2, s3] 1 ||
        segIsCorner x.1 [s0, s1, s2, s3] 3)) = true := by
  rw [(segIsCorner_eval x.1 s0 s1 s2 s3).1, (segIsCorner_eval x.1 s0 s1 s2 s3).2]
  simp [h1, h3]

/-- On a well-formed frame the offered midpoint curves are exactly the curves
of the top side and of the bottom side: the right side (the single curve from
corner 1 to corner 2) and the left side (the single wrap-around curve from
corner 3 to corner 0) are skipped, and nothing else is. -/
theorem midpointHandleCurves_wf (s0 s1 s2 s3 : Seg) (T B : List Seg)
    (hnodup : ((s0 :: (T ++ s1 :: s2 :: (B ++ [s3]))).map (·.id)).Nodup) :
    midpointHandleCurves (s0 :: (T ++ s1 :: s2 :: (B ++ [s3])))
        [s0, s1, s2, s3] =
      chainCurves (s0 :: (T ++ [s1])) ++ chainCurves (s2 :: (B ++ [s3])) := by
  obtain ⟨hA, hB⟩ := wf_id_facts s0 s1 s2 s3 T B hnodup
  unfold midpointHandleCurves
  have hshape : s0 :: (T ++ s1 :: s2 :: (B ++ [s3])) =
      s0 :: ((T ++ s1 :: s2 :: B) ++ [s3]) := by simp
  rw [hshape, outlineCurves_concat]
  have hshape2 : s0 :: ((T ++ s1 :: s2 :: B) ++ [s3]) =
      (s0 :: (T ++ [s1])) ++ s2 :: (B ++ [s3]) := by simp
  rw [hshape2, chainCurves_concat_append]
  rw [List.filter_append, List.filter_append]
  have hfT : (chainCurves (s0 :: (T ++ [s1]))).filter
      (fun c => !(segIsCorner c.1 [s0, s1, s2, s3] 1 ||
        segIsCorner c.1 [s0, s1, s2, s3] 3)) =
      chainCurves (s0 :: (T ++ [s1])) := by
    rw [List.filter_eq_self]
    intro c hc
    have hfst : c.1 ∈ (s0 :: (T ++ [s1])).dropLast := by
      apply mem_chainCurves_fst c.1 c.2
      rw [Prod.mk.eta]
      exact hc
    have hdrop : (s0 :: (T ++ [s1])).dropLast = s0 :: T := by
      rw [show s0 :: (T ++ [s1]) = (s0 :: T) ++ [s1] from by simp,
        List.dropLast_concat]
    rw [hdrop] at hfst
    exact handle_pred_true c s0 s1 s2 s3 (hA c.1 hfst).1 (hA c.1 hfst).2
  have hfB : (chainCurves (s2 :: (B ++ [s3]))).filter
      (fun c => !(segIsCorner c.1 [s0, s1, s2, s3] 1 ||
        segIsCorner c.1 [s0, s1, s2, s3] 3)) =
      chainCurves (s2 :: (B ++ [s3])) := by
    rw [List.filter_eq_self]
    intro c hc
    have hfst : c.1 ∈ (s2 :: (B ++ [s3])).dropLast := by
      apply mem_chainCurves_fst c.1 c.2
      rw [Prod.mk.eta]
      exact hc
    have hdrop : (s2 :: (B ++ [s3])).dropLast = s2 :: B := by
      rw [show s2 :: (B ++ [s3]) = (s2 :: B) ++ [s3] from by simp,
        List.dropLast_concat]
    rw [hdrop] at hfst
    exact handle_pred_true c s0 s1 s2 s3 (hB c.1 hfst).1 (hB c.1 hfst).2
  have hR : (segIsCorner s1 [s0, s1, s2, s3] 1 ||
      segIsCorner s1 [s0, s1, s2, s3] 3) = true := by
    rw [(segIsCorner_eval s1 s0 s1 s2 s3).1]
    simp
  have hL : (segIsCorner s3 [s0, s1, s2, s3] 1 ||
      segIsCorner s3 [s0, s1, s2, s3] 3) = true := by
    rw [(segIsCorner_eval s3 s0 s1 s2 s3).2]
    simp
  rw [hfT]
  have hcons : ((s1, s2) :: chainCurves (s2 :: (B ++ [s3]))).filter
      (fun c => !(segIsCorner c.1 [s0, s1, s2, s3] 1 ||
        segIsCorner c.1 [s0, s1, s2, s3] 3)) =
      chainCurves (s2 :: (B ++ [s3])) := by
    rw [List.filter_cons_of_neg (by simp [hR]), hfB]
  rw [hcons]
  have hlast : ([((s3 : Seg), (s0 : Seg))]).filter
      (fun c => !(segIsCorner c.1 [s0, s1, s2, s3] 1 ||
        segIsCorner c.1 [s0, s1, s2, s3] 3)) = [] := by
    rw [List.filter_cons_of_neg (by simp [hL])]
    rfl
  rw [hlast, List.append_nil]

theorem wf_drag (corners outline : List Seg) (nextId sid : ℕ) (p : Pt)
    (h : WFcore corners outline nextId) :
    WFcore (corners.map (movePt sid p)) (outline.map (movePt sid p))
      nextId := by
  obtain ⟨s0, s1, s2, s3, T, B, hc, ho, hnd, hlt⟩ := h
  refine ⟨movePt sid p s0, movePt sid p s1, movePt sid p s2, movePt sid p s3,
    T.map (movePt sid p), B.map (movePt sid p), ?_, ?_, ?_, ?_⟩
  · rw [hc]
    rfl
  · rw [ho]
    simp
  · rw [List.map_map]
    have : outline.map ((·.id) ∘ movePt sid p) = outline.map (·.id) :=
      List.map_congr_left (fun s _ => movePt_id sid p s)
    rw [this]
    exact hnd
  · intro s hs
    obtain ⟨t, ht, rfl⟩ := List.mem_map.mp hs
    rw [movePt_id]
    exact hlt t ht

theorem wf_insert (corners outline : List Seg) (nextId : ℕ) (c : Seg × Seg)
    (p : Pt) (h : WFcore corners outline nextId)
    (hmem : c ∈ midpointHandleCurves outline corners) :
    WFcore corners (insertAfter c.1.id ⟨nextId, p⟩ outline) (nextId + 1) := by
  obtain ⟨s0, s1, s2, s3, T, B, hc, ho, hnd, hlt⟩ := h
  subst hc
  subst ho
  rw [midpointHandleCurves_wf s0 s1 s2 s3 T B hnd] at hmem
  -- the inserted segment is fresh, so the id list stays nodup and bounded
  have hfresh : (⟨nextId, p⟩ : Seg).id ∉
      (s0 :: (T ++ s1 :: s2 :: (B ++ [s3]))).map (·.id) := by
    intro hmem'
    obtain ⟨t, ht, hid⟩ := List.mem_map.mp hmem'
    exact absurd hid (Nat.ne_of_lt (hlt t ht))
  have hperm_facts : ∀ m : List Seg,
      c.1.id ∈ (s0 :: (T ++ s1 :: s2 :: (B ++ [s3]))).map (·.id) →
      ((insertAfter c.1.id ⟨nextId, p⟩
          (s0 :: (T ++ s1 :: s2 :: (B ++ [s3])))).map (·.id)).Nodup ∧
      (∀ s ∈ insertAfter c.1.id ⟨nextId, p⟩
          (s0 :: (T ++ s1 :: s2 :: (B ++ [s3]))), s.id < nextId + 1) := by
    intro _ hidmem
    have hperm := insertAfter_perm c.1.id ⟨nextId, p⟩
      (s0 :: (T ++ s1 :: s2 :: (B ++ [s3]))) hidmem
    constructor
    · have hpm := hperm.map (·.id)
      rw [List.Perm.nodup_iff hpm]
      rw [List.map_cons]
      exact List.nodup_cons.mpr ⟨hfresh, hnd⟩
    · intro s hs
      rcases List.mem_cons.mp (hperm.mem_iff.mp hs) with h' | h'
      · rw [h']
        exact Nat.lt_succ_self nextId
      · exact Nat.lt_succ_of_lt (hlt s h')
  rcases List.mem_append.mp hmem with hm | hm
  · -- split on the top side: the new segment lands between corner 0 and 1
    have hfst : c.1 ∈ s0 :: T := by
      have h1 : c.1 ∈ (s0 :: (T ++ [s1])).dropLast := by
        apply mem_chainCurves_fst c.1 c.2
        rw [Prod.mk.eta]
        exact hm
      rwa [show s0 :: (T ++ [s1]) = (s0 :: T) ++ [s1] from by simp,
        List.dropLast_concat] at h1
    have hid : c.1.id ∈ (s0 :: T).map (·.id) := List.mem_map_of_mem _ hfst
    have hidall : c.1.id ∈
        (s0 :: (T ++ s1 :: s2 :: (B ++ [s3]))).map (·.id) := by
      rw [show s0 :: (T ++ s1 :: s2 :: (B ++ [s3])) =
        (s0 :: T) ++ (s1 :: s2 :: (B ++ [s3])) from by simp, List.map_append]
      exact List.mem_append_left _ hid
    obtain ⟨hndnew, hltnew⟩ := hperm_facts [] hidall
    have hshape : insertAfter c.1.id (⟨nextId, p⟩ : Seg)
        (s0 :: (T ++ s1 :: s2 :: (B ++ [s3]))) =
        s0 :: ((if s0.id = c.1.id then (⟨nextId, p⟩ : Seg) :: T
            else insertAfter c.1.id ⟨nextId, p⟩ T) ++
          s1 :: s2 :: (B ++ [s3])) := by
      rw [show s0 :: (T ++ s1 :: s2 :: (B ++ [s3])) =
        (s0 :: T) ++ (s1 :: s2 :: (B ++ [s3])) from by simp,
        insertAfter_append_left _ _ _ _ hid, insertAfter_cons_shape]
      simp
    exact ⟨s0, s1, s2, s3,
      (if s0.id = c.1.id then (⟨nextId, p⟩ : Seg) :: T
        else insertAfter c.1.id ⟨nextId, p⟩ T), B, rfl, hshape, hndnew,
      hltnew⟩
  · -- split on the bottom side: the new segment lands between corner 2 and 3
    have hfst : c.1 ∈ s2 :: B := by
      have h1 : c.1 ∈ (s2 :: (B ++ [s3])).dropLast := by
        apply mem_chainCurves_fst c.1 c.2
        rw [Prod.mk.eta]
        exact hm
      rwa [show s2 :: (B ++ [s3]) = (s2 :: B) ++ [s3] from by simp,
        List.dropLast_concat] at h1
    have hid : c.1.id ∈ (s2 :: B).map (·.id) := List.mem_map_of_mem _ hfst
    have hnot : c.1.id ∉ (s0 :: (T ++ [s1])).map (·.id) := by
      intro hmem'
      obtain ⟨x, hx, hxid⟩ := List.mem_map.mp hmem'
      have hins : c.1 ∈ s2 :: (B ++ [s3]) := by
        rcases List.mem_cons.mp hfst with h' | h'
        · simp [h']
        · simp [h']
      have hne := map_id_ne (s0 :: (T ++ [s1])) (s2 :: (B ++ [s3]))
        (by rw [show (s0 :: (T ++ [s1])) ++ s2 :: (B ++ [s3]) =
          s0 :: (T ++ s1 :: s2 :: (B ++ [s3])) from by simp]; exact hnd)
        hx hins
      exact hne hxid
    have hidall : c.1.id ∈
        (s0 :: (T ++ s1 :: s2 :: (B ++ [s3]))).map (·.id) := by
      rw [show s0 :: (T ++ s1 :: s2 :: (B ++ [s3])) =
        (s0 :: (T ++ [s1])) ++ ((s2 :: B) ++ [s3]) from by simp,
        List.map_append, List.map_append]
      exact List.mem_append_right _ (List.mem_append_left _ hid)
    obtain ⟨hndnew, hltnew⟩ := hperm_facts [] hidall
    have hshape : insertAfter c.1.id (⟨nextId, p⟩ : Seg)
        (s0 :: (T ++ s1 :: s2 :: (B ++ [s3]))) =
        s0 :: (T ++ s1 :: s2 ::
          ((if s2.id = c.1.id then (⟨nextId, p⟩ : Seg) :: B
            else insertAfter c.1.id ⟨nextId, p⟩ B) ++ [s3])) := by
      rw [show s0 :: (T ++ s1 :: s2 :: (B ++ [s3])) =
        (s0 :: (T ++ [s1])) ++ ((s2 :: B) ++ [s3]) from by simp,
        insertAfter_append_right _ _ _ _ hnot,
        insertAfter_append_left _ _ _ _ hid, insertAfter_cons_shape]
      simp
    exact ⟨s0, s1, s2, s3, T,
      (if s2.id = c.1.id then (⟨nextId, p⟩ : Seg) :: B
        else insertAfter c.1.id ⟨nextId, p⟩ B), rfl, hshape, hndnew, hltnew⟩

theorem wellFormed_tryArrange (x : SPState)
    (h : WFcore x.corners x.outline x.nextId) :
    WellFormed (tryArrangeContents x) := by
  unfold WellFormed
  rw [(tryArrangeContents_fields x).2.2.1, (tryArrangeContents_fields x).2.1,
    (tryArrangeContents_fields x).2.2.2.1]
  exact h

theorem wf_applyEdit (st : SPState) (op : EditOp) (h : WellFormed st) :
    WellFormed (applyEdit st op) := by
  cases op with
  | drag sid p =>
    have hred : applyEdit st (.drag sid p) =
        tryArrangeContents
          { st with outline := st.outline.map (movePt sid p)
                    corners := st.corners.map (movePt sid p) } := rfl
    rw [hred]
    apply wellFormed_tryArrange
    exact wf_drag st.corners st.outline st.nextId sid p h
  | insertMidpoint c p =>
    have hred : applyEdit st (.insertMidpoint c p) =
        if c ∈ midpointHandleCurves st.outline st.corners then
          tryArrangeContents
            { st with
                outline := insertAfter c.1.id ⟨st.nextId, p⟩ st.outline
                nextId := st.nextId + 1 }
        else st := rfl
    rw [hred]
    by_cases hmem : c ∈ midpointHandleCurves st.outline st.corners
    · rw [if_pos hmem]
      apply wellFormed_tryArrange
      exact wf_insert st.corners st.outline st.nextId c p h hmem
    · rw [if_neg hmem]
      exact h

theorem wf_applyEdits (st : SPState) (ops : List EditOp)
    (h : WellFormed st) : WellFormed (applyEdits st ops) := by
  unfold applyEdits
  induction ops generalizing st with
  | nil => exact h
  | cons op ops ih => exact ih (applyEdit st op) (wf_applyEdit st op h)

/-- C10: on every arrangement pass the midpoint affordances are rebuilt as a
curve-splitter handle for every outline curve except those starting at
corners[1] or corners[3]; in every state reachable by UI edits from a
well-formed frame the right side is the single curve from corner 1 to corner
2 and the left side the single wrap-around curve from corner 3 to corner 0,
and the offered handles are exactly the curves of the top side and of the
bottom side — never a curve of the left or right boundary side. -/
theorem midpoint_markers_top_bottom_only (st : SPState) (ops : List EditOp)
    (h : WellFormed st) :
    WellFormed (applyEdits st ops) ∧
    ∃ s0 s1 s2 s3 T B,
      (applyEdits st ops).corners = [s0, s1, s2, s3] ∧
      (applyEdits st ops).outline = s0 :: (T ++ s1 :: s2 :: (B ++ [s3])) ∧
      (updateMidpiontMarkers (applyEdits st ops)).midpointMarkers =
        chainCurves (s0 :: (T ++ [s1])) ++
          chainCurves (s2 :: (B ++ [s3])) := by
  have hwf := wf_applyEdits st ops h
  refine ⟨hwf, ?_⟩
  obtain ⟨s0, s1, s2, s3, T, B, hc, ho, hnd, hlt⟩ := hwf
  refine ⟨s0, s1, s2, s3, T, B, hc, ho, ?_⟩
  show midpointHandleCurves (applyEdits st ops).outline
      (applyEdits st ops).corners = _
  rw [ho] at hnd
  rw [ho, hc]
  exact midpointHandleCurves_wf s0 s1 s2 s3 T B hnd

/-- C10 witness: starting from the well-formed square frame, after a midpoint
insertion on the top side followed by a corner drag, the affordances are
exactly the curves of the top and bottom sides. -/
theorem midpoint_markers_top_bottom_only_witness :
    WellFormed squareState ∧
    (WellFormed (applyEdits squareState
        [.insertMidpoint (sq0, sq1) ⟨5, 0⟩, .drag 1 ⟨12, 1⟩]) ∧
      ∃ s0 s1 s2 s3 T B,
        (applyEdits squareState
          [.insertMidpoint (sq0, sq1) ⟨5, 0⟩,
           .drag 1 ⟨12, 1⟩]).corners = [s0, s1, s2, s3] ∧
        (applyEdits squareState
          [.insertMidpoint (sq0, sq1) ⟨5, 0⟩,
           .drag 1 ⟨12, 1⟩]).outline =
          s0 :: (T ++ s1 :: s2 :: (B ++ [s3])) ∧
        (updateMidpiontMarkers (applyEdits squareState
          [.insertMidpoint (sq0, sq1) ⟨5, 0⟩,
           .drag 1 ⟨12, 1⟩])).midpointMarkers =
          chainCurves (s0 :: (T ++ [s1])) ++
            chainCurves (s2 :: (B ++ [s3]))) := by
  have h : WellFormed squareState :=
    ⟨sq0, sq1, sq2, sq3, [], [], rfl, rfl, by decide, by decide⟩
  exact ⟨h, midpoint_markers_top_bottom_only squareState
    [.insertMidpoint (sq0, sq1) ⟨5, 0⟩, .drag 1 ⟨12, 1⟩] h⟩

end Fiddlesticks
